import Mathlib

set_option maxRecDepth 10000

/-!
Shallow embedding of the ethabi ABI decoder (`src/ethabi/src/decoder.rs`).

Buffers are `List UInt8`; the Rust `usize` arithmetic is modelled with `Nat`
(every offset the decoder follows is capped below `2 ^ 32` by `as_usize`, so
uadd arithmetic on a 64-bit host is exact); fallible code returns
`Except Error`.
-/

/-- The two variants of the library error type that the decoder produces:
`InvalidData` for every structural problem, and `InvalidName` carrying the
dedicated empty-input message (the enclosing crate's `Error` enum has further
variants, but the decoder constructs only these two). -/
inductive Error where
| InvalidData : Error
| InvalidName (msg : String) : Error
deriving DecidableEq

/-- The token union (external collaborator `crate::Token`).  `Address` carries
the 20 address bytes, the 256-bit integers (`ethereum_types::U256`, produced by
`from_big_endian` from 32 buffer bytes) are carried as `Nat`, `String` carries
the lossily decoded text. -/
inductive Token where
| Address (a : List UInt8) : Token
| Int (v : Nat) : Token
| Uint (v : Nat) : Token
| Bool (b : Bool) : Token
| FixedBytes (bs : List UInt8) : Token
| Bytes (bs : List UInt8) : Token
| String (s : String) : Token
| Array (ts : List Token) : Token
| FixedArray (ts : List Token) : Token
| Tuple (ts : List Token) : Token

/-- The type descriptor (external collaborator `crate::ParamType`). -/
inductive ParamType where
| Address : ParamType
| Int (w : Nat) : ParamType
| Uint (w : Nat) : ParamType
| Bool : ParamType
| FixedBytes (n : Nat) : ParamType
| Bytes : ParamType
| String : ParamType
| Array (t : ParamType) : ParamType
| FixedArray (t : ParamType) (n : Nat) : ParamType
| Tuple (ts : List ParamType) : ParamType

/-- Decidable equality for `Except` results, used to settle concrete runs. -/
instance {ε α : Type} [DecidableEq ε] [DecidableEq α] : DecidableEq (Except ε α) :=
  fun x y =>
    match x, y with
    | .ok a, .ok b => decidable_of_iff (a = b) (by simp)
    | .error e, .error f => decidable_of_iff (e = f) (by simp)
    | .ok _, .error _ => isFalse (by simp)
    | .error _, .ok _ => isFalse (by simp)

mutual

/-- Modelled from the spec (the `ParamType::is_dynamic` method lives outside
`src/`): true iff the type or any transitively contained type is `Bytes`,
`String`, `Array`, or contains a dynamic member. -/
def is_dynamic : ParamType → Bool
| .Bytes => true
| .String => true
| .Array _ => true
| .FixedArray t _ => is_dynamic t
| .Tuple ts => is_dynamic_list ts
| _ => false

/-- Fold of `ts.iter().any(ParamType::is_dynamic)` over a tuple's member list. -/
def is_dynamic_list : List ParamType → Bool
| [] => false
| p :: ps => is_dynamic p || is_dynamic_list ps

end

mutual

/-- Modelled from the spec (the `ParamType::is_empty_bytes_valid_encoding`
method lives outside `src/`): true iff the type consumes zero bytes under any
encoding — in practice `FixedBytes(0)`, `FixedArray(_, 0)`, and tuples
thereof. -/
def is_empty_bytes_valid_encoding : ParamType → Bool
| .FixedBytes n => n == 0
| .FixedArray _ n => n == 0
| .Tuple ts => is_empty_bytes_valid_encoding_list ts
| _ => false

/-- All members of a tuple consume zero bytes. -/
def is_empty_bytes_valid_encoding_list : List ParamType → Bool
| [] => true
| p :: ps => is_empty_bytes_valid_encoding p && is_empty_bytes_valid_encoding_list ps

end

/-- Source struct `DecodeResult` carrying the token and the new cursor offset. -/
structure DecodeResult where
  token : Token
  new_offset : Nat

/-- Source `check_zeroes`: succeeds iff every byte of the slice is zero. -/
def check_zeroes (data : List UInt8) : Except Error Unit :=
  if data.all (fun b => b == 0) then .ok () else .error .InvalidData

/-- Source `as_usize`: the first 28 bytes of the word must be zero, the last 4 bytes
are read as a big-endian 32-bit value (`(slice[28] << 24) + (slice[29] << 16) +
(slice[30] << 8) + slice[31]`). -/
def as_usize (slice : List UInt8) : Except Error Nat :=
  if !(slice.take 28).all (fun x => x == 0) then
    .error .InvalidData
  else
    .ok ((slice.getD 28 0).toNat * 2 ^ 24 + (slice.getD 29 0).toNat * 2 ^ 16 +
      (slice.getD 30 0).toNat * 2 ^ 8 + (slice.getD 31 0).toNat)

/-- Source `as_bool`: the first 31 bytes must be zero; the result is `slice[31] == 1`. -/
def as_bool (slice : List UInt8) : Except Error Bool := do
  let _ ← check_zeroes (slice.take 31)
  .ok (slice.getD 31 0 == 1)

/-- Source `peek`: a bounded view of `len` bytes starting at `offset`. -/
def peek (data : List UInt8) (offset len : Nat) : Except Error (List UInt8) :=
  if offset + len > data.length then .error .InvalidData
  else .ok ((data.drop offset).take len)

/-- Source `peek_32_bytes`: `peek` of a full word, copied out. -/
def peek_32_bytes (data : List UInt8) (offset : Nat) : Except Error (List UInt8) :=
  peek data offset 32

/-- Source `round_up_nearest_multiple`: `(value + padding - 1) / padding * padding`. -/
def round_up_nearest_multiple (value padding : Nat) : Nat :=
  (value + padding - 1) / padding * padding

/-- Source `take_bytes`: copies `data[offset .. offset+len]`; under `validate` it
additionally requires the region padded up to the next 32-byte multiple to be
in bounds and its padding bytes to be zero. -/
def take_bytes (data : List UInt8) (offset len : Nat) (validate : Bool) :
    Except Error (List UInt8) :=
  if validate then
    let padded_len := round_up_nearest_multiple len 32
    if offset + padded_len > data.length then .error .InvalidData
    else do
      let _ ← check_zeroes ((data.drop (offset + len)).take (padded_len - len))
      .ok ((data.drop offset).take len)
  else if offset + len > data.length then .error .InvalidData
  else .ok ((data.drop offset).take len)

/-- Model of `U256::from_big_endian` on a 32-byte slice (external collaborator from
`ethereum-types`): the big-endian numeric value of the bytes. -/
def from_big_endian (slice : List UInt8) : Nat :=
  slice.foldl (fun acc b => acc * 256 + b.toNat) 0

/-- Is `b` a UTF-8 continuation byte (`0x80 ..= 0xBF`)? -/
def utf8_cont (b : UInt8) : Bool :=
  0x80 ≤ b && b ≤ 0xBF

/-- Valid second bytes of a three-byte UTF-8 sequence headed by `b0`
(rejecting overlong forms and surrogates, as Rust's validator does). -/
def utf8_second_of_three (b0 b1 : UInt8) : Bool :=
  (b0 == 0xE0 && (0xA0 ≤ b1 && b1 ≤ 0xBF)) ||
  ((0xE1 ≤ b0 && b0 ≤ 0xEC) && utf8_cont b1) ||
  (b0 == 0xED && (0x80 ≤ b1 && b1 ≤ 0x9F)) ||
  ((0xEE ≤ b0 && b0 ≤ 0xEF) && utf8_cont b1)

/-- Valid second bytes of a four-byte UTF-8 sequence headed by `b0`
(rejecting overlong forms and values above U+10FFFF). -/
def utf8_second_of_four (b0 b1 : UInt8) : Bool :=
  (b0 == 0xF0 && (0x90 ≤ b1 && b1 ≤ 0xBF)) ||
  ((0xF1 ≤ b0 && b0 ≤ 0xF3) && utf8_cont b1) ||
  (b0 == 0xF4 && (0x80 ≤ b1 && b1 ≤ 0x8F))

/-- The Unicode replacement character U+FFFD. -/
def replacement_char : Char := Char.ofNat 0xFFFD

/-- Worker for the `String::from_utf8_lossy` model.  Every step consumes at
least one byte, so running it with `fuel = length of the input` is exact; the
fuel only makes the recursion structural. -/
def utf8_lossy_go : Nat → List UInt8 → List Char
| _, [] => []
| 0, _ => []
| fuel + 1, b0 :: rest0 =>
  if b0 ≤ 0x7F then
    Char.ofNat b0.toNat :: utf8_lossy_go fuel rest0
  else if b0 < 0xC2 then
    replacement_char :: utf8_lossy_go fuel rest0
  else if b0 ≤ 0xDF then
    match rest0 with
    | [] => [replacement_char]
    | b1 :: rest1 =>
      if utf8_cont b1 then
        Char.ofNat ((b0.toNat - 0xC0) * 64 + (b1.toNat - 0x80)) :: utf8_lossy_go fuel rest1
      else
        replacement_char :: utf8_lossy_go fuel (b1 :: rest1)
  else if b0 ≤ 0xEF then
    match rest0 with
    | [] => [replacement_char]
    | b1 :: rest1 =>
      if utf8_second_of_three b0 b1 then
        match rest1 with
        | [] => [replacement_char]
        | b2 :: rest2 =>
          if utf8_cont b2 then
            Char.ofNat ((b0.toNat - 0xE0) * 4096 + (b1.toNat - 0x80) * 64 +
              (b2.toNat - 0x80)) :: utf8_lossy_go fuel rest2
          else
            replacement_char :: utf8_lossy_go fuel (b2 :: rest2)
      else
        replacement_char :: utf8_lossy_go fuel (b1 :: rest1)
  else if b0 ≤ 0xF4 then
    match rest0 with
    | [] => [replacement_char]
    | b1 :: rest1 =>
      if utf8_second_of_four b0 b1 then
        match rest1 with
        | [] => [replacement_char]
        | b2 :: rest2 =>
          if utf8_cont b2 then
            match rest2 with
            | [] => [replacement_char]
            | b3 :: rest3 =>
              if utf8_cont b3 then
                Char.ofNat ((b0.toNat - 0xF0) * 262144 + (b1.toNat - 0x80) * 4096 +
                  (b2.toNat - 0x80) * 64 + (b3.toNat - 0x80)) :: utf8_lossy_go fuel rest3
              else
                replacement_char :: utf8_lossy_go fuel (b3 :: rest3)
          else
            replacement_char :: utf8_lossy_go fuel (b2 :: rest2)
      else
        replacement_char :: utf8_lossy_go fuel (b1 :: rest1)
  else
    replacement_char :: utf8_lossy_go fuel rest0

/-- Model of the character stream produced by Rust's
`String::from_utf8_lossy` (external collaborator from `std`): well-formed
sequences decode to their scalar value, each maximal invalid subpart is
replaced by one U+FFFD, and a truncated-but-so-far-valid sequence at the end
of the input yields a single U+FFFD. -/
def utf8_lossy_chars (bytes : List UInt8) : List Char :=
  utf8_lossy_go bytes.length bytes

/-- Model of `String::from_utf8_lossy(&bytes).into()`. -/
def from_utf8_lossy (bytes : List UInt8) : String :=
  ⟨utf8_lossy_chars bytes⟩

/-- The message of the dedicated empty-input diagnostic in `decode_impl`. -/
def empty_input_message : String :=
  "please ensure the contract and method you\x27re calling exist! failed to decode empty bytes. if you\x27re using jsonrpc this is likely due to jsonrpc returning \x600x\x60 in case contract or method don\x27t exist"

/-- The inline `if validate { check_zeroes(..)? }` guard of the `Address`
arm: the check is performed only under `validate`. -/
def check_if (validate : Bool) (bytes : List UInt8) : Except Error Unit :=
  if validate then check_zeroes bytes else .ok ()

/-- The inline `if offset > data.len() { return Err(Error::InvalidData) }`
guard of the dynamic `FixedArray`/`Tuple` arms. -/
def require_le (inner_offset data_len : Nat) : Except Error Unit :=
  if inner_offset > data_len then .error .InvalidData else .ok ()

/-- The `for _ in 0..len { let res = decode_param(..)?; .. }` loop of the
`Array` and `FixedArray` arms: run the element decoder `count` times,
threading the cursor and collecting the tokens in order. -/
def run_loop (f : Nat → Except Error DecodeResult) (offset : Nat) :
    Nat → Except Error (List Token × Nat)
| 0 => .ok ([], offset)
| count + 1 => do
  let res ← f offset
  let (tokens, final) ← run_loop f res.new_offset count
  .ok (res.token :: tokens, final)

mutual

/-- Source `decode_param`: decode one value of type `param` at cursor `offset`.
The `&data[i..]` re-slicings of the source become `List.drop`; in the `Array`
arm the drop index `len_offset + 32` is within bounds because
`peek_32_bytes data len_offset` just succeeded. -/
def decode_param (param : ParamType) (data : List UInt8) (offset : Nat)
    (validate : Bool) : Except Error DecodeResult :=
match param with
| .Address => do
  let slice ← peek_32_bytes data offset
  let _ ← check_if validate (slice.take 12)
  let address := slice.drop 12
  .ok ⟨.Address address, offset + 32⟩
| .Int _ => do
  let slice ← peek_32_bytes data offset
  .ok ⟨.Int (from_big_endian slice), offset + 32⟩
| .Uint _ => do
  let slice ← peek_32_bytes data offset
  .ok ⟨.Uint (from_big_endian slice), offset + 32⟩
| .Bool => do
  let slice ← peek_32_bytes data offset
  let b ← as_bool slice
  .ok ⟨.Bool b, offset + 32⟩
| .FixedBytes len => do
  let bytes ← take_bytes data offset len validate
  .ok ⟨.FixedBytes bytes, offset + 32⟩
| .Bytes => do
  let word ← peek_32_bytes data offset
  let dynamic_offset ← as_usize word
  let len_word ← peek_32_bytes data dynamic_offset
  let len ← as_usize len_word
  let bytes ← take_bytes data (dynamic_offset + 32) len validate
  .ok ⟨.Bytes bytes, offset + 32⟩
| .String => do
  let word ← peek_32_bytes data offset
  let dynamic_offset ← as_usize word
  let len_word ← peek_32_bytes data dynamic_offset
  let len ← as_usize len_word
  let bytes ← take_bytes data (dynamic_offset + 32) len validate
  .ok ⟨.String (from_utf8_lossy bytes), offset + 32⟩
| .Array t => do
  let word ← peek_32_bytes data offset
  let len_offset ← as_usize word
  let len_word ← peek_32_bytes data len_offset
  let len ← as_usize len_word
  let tail := data.drop (len_offset + 32)
  let (tokens, _) ← run_loop (fun o => decode_param t tail o validate) 0 len
  .ok ⟨.Array tokens, offset + 32⟩
| .FixedArray t len =>
  if is_dynamic (.FixedArray t len) then do
    let word ← peek_32_bytes data offset
    let inner_offset ← as_usize word
    let _ ← require_le inner_offset data.length
    let tail := data.drop inner_offset
    let (tokens, _) ← run_loop (fun o => decode_param t tail o validate) 0 len
    .ok ⟨.FixedArray tokens, offset + 32⟩
  else do
    let (tokens, new_offset) ←
      run_loop (fun o => decode_param t data o validate) offset len
    .ok ⟨.FixedArray tokens, new_offset⟩
| .Tuple ts =>
  if is_dynamic (.Tuple ts) then do
    let word ← peek_32_bytes data offset
    let inner_offset ← as_usize word
    let _ ← require_le inner_offset data.length
    let (tokens, _) ← decode_list ts (data.drop inner_offset) 0 validate
    .ok ⟨.Tuple tokens, offset + 32⟩
  else do
    let (tokens, new_offset) ← decode_list ts data offset validate
    .ok ⟨.Tuple tokens, new_offset⟩
termination_by sizeOf param

/-- The `for param in t { .. }` loop of the `Tuple` arm and the top-level
driver: decode each declared type in order, threading the cursor. -/
def decode_list (types : List ParamType) (data : List UInt8) (offset : Nat)
    (validate : Bool) : Except Error (List Token × Nat) :=
match types with
| [] => .ok ([], offset)
| p :: ps => do
  let res ← decode_param p data offset validate
  let (tokens, final) ← decode_list ps data res.new_offset validate
  .ok (res.token :: tokens, final)
termination_by sizeOf types

end

/-- Source `decode_impl`: the top-level driver.  Lean lists need no allocation, so
the always-successful `tokens.try_reserve_exact(types.len())` has no
fallible counterpart here. -/
def decode_impl (types : List ParamType) (data : List UInt8) (validate : Bool) :
    Except Error (List Token × Nat) :=
  if !is_empty_bytes_valid_encoding_list types && data.isEmpty then
    .error (.InvalidName empty_input_message)
  else do
    let (tokens, offset) ← decode_list types data 0 validate
    if validate && offset != data.length then .error .InvalidData
    else .ok (tokens, offset)

/-- Variant of `decode_impl` with its empty-input guard removed; used to state that
decoding "proceeds past" the guard when every type tolerates empty input. -/
def decode_impl_no_empty_check (types : List ParamType) (data : List UInt8)
    (validate : Bool) : Except Error (List Token × Nat) := do
  let (tokens, offset) ← decode_list types data 0 validate
  if validate && offset != data.length then .error .InvalidData
  else .ok (tokens, offset)

/-- Source `decode_validate`: strict mode. -/
def decode_validate (types : List ParamType) (data : List UInt8) :
    Except Error (List Token) :=
  (decode_impl types data true).map Prod.fst

/-- Source `decode`: lenient mode. -/
def decode (types : List ParamType) (data : List UInt8) :
    Except Error (List Token) :=
  (decode_impl types data false).map Prod.fst

mutual

/-- Does a token have exactly the shape the declared type prescribes
(matching variants recursively, with the declared lengths for `Address`,
`FixedBytes` and `FixedArray`)? -/
def token_matches : ParamType → Token → Bool
| .Address, .Address a => a.length == 20
| .Int _, .Int _ => true
| .Uint _, .Uint _ => true
| .Bool, .Bool _ => true
| .FixedBytes n, .FixedBytes bs => bs.length == n
| .Bytes, .Bytes _ => true
| .String, .String _ => true
| .Array t, .Array toks => tokens_all_match t toks
| .FixedArray t n, .FixedArray toks => toks.length == n && tokens_all_match t toks
| .Tuple ts, .Tuple toks => tokens_match ts toks
| _, _ => false
termination_by param _ => (sizeOf param, 0)

/-- Every token of the list matches the element type `t`. -/
def tokens_all_match (t : ParamType) : List Token → Bool
| [] => true
| tok :: toks => token_matches t tok && tokens_all_match t toks
termination_by toks => (sizeOf t, sizeOf toks)

/-- The token list matches the type list pointwise (same length). -/
def tokens_match : List ParamType → List Token → Bool
| [], [] => true
| p :: ps, tok :: toks => token_matches p tok && tokens_match ps toks
| _, _ => false
termination_by types _ => (sizeOf types, 0)

end

/-- The 32-byte big-endian ABI word encoding the value `n` (exact for
`n < 2 ^ 32`: the leading 28 bytes are zero). -/
def word_of_nat (n : Nat) : List UInt8 :=
  List.replicate 28 0 ++
    [UInt8.ofNat (n / 2 ^ 24), UInt8.ofNat (n / 2 ^ 16),
     UInt8.ofNat (n / 2 ^ 8), UInt8.ofNat n]

/-- The canonical well-formed dynamic string/bytes encoding of a payload:
head offset word `0x20`, length word, payload, zero padding up to the next
32-byte multiple. -/
def string_encoding (payload : List UInt8) : List UInt8 :=
  word_of_nat 32 ++ word_of_nat payload.length ++ payload ++
    List.replicate (round_up_nearest_multiple payload.length 32 - payload.length) 0

/-- A buffer declaring a string of length `0x92` (146) followed by five words
of ASCII payload with zero tail padding. -/
def str146_buf : List UInt8 :=
  string_encoding (List.replicate 146 0x61)

/-- One word whose upper 12 bytes are not all zero (first byte `0x01`),
lower 20 bytes zero: an address with dirty upper bytes. -/
def dirty_address_word : List UInt8 :=
  1 :: List.replicate 31 0

/-! ### Generic `Except` plumbing -/

@[simp] theorem ok_bind {ε α β : Type} (a : α) (f : α → Except ε β) :
    (Except.ok a : Except ε α) >>= f = f a := rfl

@[simp] theorem error_bind {ε α β : Type} (e : ε) (f : α → Except ε β) :
    (Except.error e : Except ε α) >>= f = Except.error e := rfl

@[simp] theorem map_ok {ε α β : Type} (g : α → β) (a : α) :
    Except.map g (Except.ok a : Except ε α) = Except.ok (g a) := rfl

@[simp] theorem map_error {ε α β : Type} (g : α → β) (e : ε) :
    Except.map g (Except.error e : Except ε α) = Except.error e := rfl

theorem bind_eq_ok {ε α β : Type} {x : Except ε α} {f : α → Except ε β} {b : β} :
    x >>= f = .ok b ↔ ∃ a, x = .ok a ∧ f a = .ok b := by
  cases x <;> simp

/-! ### Monotonicity: the validating run refines the lenient run -/

theorem le_round_up (value : Nat) : value ≤ round_up_nearest_multiple value 32 := by
  unfold round_up_nearest_multiple
  omega

theorem check_if_false (bytes : List UInt8) : check_if false bytes = .ok () := rfl

theorem take_bytes_mono {data : List UInt8} {offset len : Nat} {v : Bool}
    {bs : List UInt8} (h : take_bytes data offset len v = .ok bs) :
    take_bytes data offset len false = .ok bs := by
  cases v with
  | false => exact h
  | true =>
    have hle := le_round_up len
    simp only [take_bytes] at h ⊢
    rw [if_pos trivial] at h
    rw [if_neg (by simp)]
    split at h
    · simp at h
    · rename_i hbound
      rw [bind_eq_ok] at h
      obtain ⟨u, _, h⟩ := h
      rw [if_neg (by omega)]
      exact h

theorem run_loop_mono {f g : Nat → Except Error DecodeResult}
    (hfg : ∀ o r, f o = .ok r → g o = .ok r) :
    ∀ (n offset : Nat) (out : List Token × Nat),
      run_loop f offset n = .ok out → run_loop g offset n = .ok out := by
  intro n
  induction n with
  | zero => intro offset out h; simpa [run_loop] using h
  | succ n ih =>
    intro offset out h
    simp only [run_loop] at h ⊢
    rw [bind_eq_ok] at h
    obtain ⟨r, hr, h⟩ := h
    rw [bind_eq_ok] at h
    obtain ⟨⟨toks, fin⟩, hrest, h⟩ := h
    rw [hfg _ _ hr, ok_bind, ih _ _ hrest, ok_bind]
    exact h

mutual

theorem decode_param_mono (param : ParamType) (data : List UInt8) (offset : Nat)
    (validate : Bool) (r : DecodeResult)
    (h : decode_param param data offset validate = .ok r) :
    decode_param param data offset false = .ok r := by
  cases param with
  | Address =>
    simp only [decode_param] at h ⊢
    rw [bind_eq_ok] at h
    obtain ⟨slice, hs, h⟩ := h
    rw [bind_eq_ok] at h
    obtain ⟨u, hu, h⟩ := h
    rw [hs, ok_bind, check_if_false, ok_bind]
    exact h
  | Int w =>
    simpa only [decode_param] using h
  | Uint w =>
    simpa only [decode_param] using h
  | Bool =>
    simpa only [decode_param] using h
  | FixedBytes len =>
    simp only [decode_param] at h ⊢
    rw [bind_eq_ok] at h
    obtain ⟨bs, hbs, h⟩ := h
    rw [take_bytes_mono hbs, ok_bind]
    exact h
  | Bytes =>
    simp only [decode_param] at h ⊢
    rw [bind_eq_ok] at h
    obtain ⟨w, hw, h⟩ := h
    rw [bind_eq_ok] at h
    obtain ⟨d, hd, h⟩ := h
    rw [bind_eq_ok] at h
    obtain ⟨lw, hlw, h⟩ := h
    rw [bind_eq_ok] at h
    obtain ⟨len, hlen, h⟩ := h
    rw [bind_eq_ok] at h
    obtain ⟨bs, hbs, h⟩ := h
    rw [hw, ok_bind, hd, ok_bind, hlw, ok_bind, hlen, ok_bind,
      take_bytes_mono hbs, ok_bind]
    exact h
  | String =>
    simp only [decode_param] at h ⊢
    rw [bind_eq_ok] at h
    obtain ⟨w, hw, h⟩ := h
    rw [bind_eq_ok] at h
    obtain ⟨d, hd, h⟩ := h
    rw [bind_eq_ok] at h
    obtain ⟨lw, hlw, h⟩ := h
    rw [bind_eq_ok] at h
    obtain ⟨len, hlen, h⟩ := h
    rw [bind_eq_ok] at h
    obtain ⟨bs, hbs, h⟩ := h
    rw [hw, ok_bind, hd, ok_bind, hlw, ok_bind, hlen, ok_bind,
      take_bytes_mono hbs, ok_bind]
    exact h
  | Array t =>
    simp only [decode_param] at h ⊢
    rw [bind_eq_ok] at h
    obtain ⟨w, hw, h⟩ := h
    rw [bind_eq_ok] at h
    obtain ⟨lo, hlo, h⟩ := h
    rw [bind_eq_ok] at h
    obtain ⟨lw, hlw, h⟩ := h
    rw [bind_eq_ok] at h
    obtain ⟨len, hlen, h⟩ := h
    rw [bind_eq_ok] at h
    obtain ⟨pair, hloop, h⟩ := h
    rw [hw, ok_bind, hlo, ok_bind, hlw, ok_bind, hlen, ok_bind,
      run_loop_mono (fun o r hr => decode_param_mono t _ o validate r hr) _ _ _ hloop,
      ok_bind]
    exact h
  | FixedArray t len =>
    by_cases hdyn : is_dynamic (ParamType.FixedArray t len) = true
    · simp only [decode_param] at h ⊢
      rw [if_pos hdyn] at h
      rw [if_pos hdyn]
      rw [bind_eq_ok] at h
      obtain ⟨w, hw, h⟩ := h
      rw [bind_eq_ok] at h
      obtain ⟨io, hio, h⟩ := h
      rw [bind_eq_ok] at h
      obtain ⟨u, hu, h⟩ := h
      rw [bind_eq_ok] at h
      obtain ⟨pair, hloop, h⟩ := h
      rw [hw, ok_bind, hio, ok_bind, hu, ok_bind,
        run_loop_mono (fun o r hr => decode_param_mono t _ o validate r hr) _ _ _ hloop,
        ok_bind]
      exact h
    · simp only [decode_param] at h ⊢
      rw [if_neg hdyn] at h
      rw [if_neg hdyn]
      rw [bind_eq_ok] at h
      obtain ⟨pair, hloop, h⟩ := h
      rw [run_loop_mono (fun o r hr => decode_param_mono t _ o validate r hr) _ _ _ hloop,
        ok_bind]
      exact h
  | Tuple ts =>
    by_cases hdyn : is_dynamic (ParamType.Tuple ts) = true
    · simp only [decode_param] at h ⊢
      rw [if_pos hdyn] at h
      rw [if_pos hdyn]
      rw [bind_eq_ok] at h
      obtain ⟨w, hw, h⟩ := h
      rw [bind_eq_ok] at h
      obtain ⟨io, hio, h⟩ := h
      rw [bind_eq_ok] at h
      obtain ⟨u, hu, h⟩ := h
      rw [bind_eq_ok] at h
      obtain ⟨pair, hlist, h⟩ := h
      rw [hw, ok_bind, hio, ok_bind, hu, ok_bind,
        decode_list_mono ts _ 0 validate _ hlist, ok_bind]
      exact h
    · simp only [decode_param] at h ⊢
      rw [if_neg hdyn] at h
      rw [if_neg hdyn]
      rw [bind_eq_ok] at h
      obtain ⟨pair, hlist, h⟩ := h
      rw [decode_list_mono ts _ offset validate _ hlist, ok_bind]
      exact h
termination_by sizeOf param

theorem decode_list_mono (types : List ParamType) (data : List UInt8)
    (offset : Nat) (validate : Bool) (out : List Token × Nat)
    (h : decode_list types data offset validate = .ok out) :
    decode_list types data offset false = .ok out := by
  cases types with
  | nil => simpa only [decode_list] using h
  | cons p ps =>
    simp only [decode_list] at h ⊢
    rw [bind_eq_ok] at h
    obtain ⟨r, hr, h⟩ := h
    rw [bind_eq_ok] at h
    obtain ⟨pair, hrest, h⟩ := h
    rw [decode_param_mono p data offset validate r hr, ok_bind,
      decode_list_mono ps data r.new_offset validate _ hrest, ok_bind]
    exact h
termination_by sizeOf types

end

/-! ### Inversion helpers -/

theorem map_fst_eq_ok {x : Except Error (List Token × Nat)} {tokens : List Token} :
    Except.map Prod.fst x = .ok tokens ↔ ∃ off, x = .ok (tokens, off) := by
  cases x with
  | ok p =>
    cases p with
    | mk a b =>
      simp only [Except.map, Except.ok.injEq, Prod.mk.injEq]
      constructor
      · intro h
        exact ⟨b, h, rfl⟩
      · rintro ⟨off, h, _⟩
        exact h
  | error e => simp [Except.map]

theorem peek_ok_inv {data : List UInt8} {offset len : Nat} {out : List UInt8}
    (h : peek data offset len = .ok out) :
    offset + len ≤ data.length ∧ out = (data.drop offset).take len := by
  simp only [peek] at h
  split at h
  · simp at h
  · rename_i hb
    refine ⟨by omega, ?_⟩
    simpa using h.symm

theorem peek_ok_length {data : List UInt8} {offset len : Nat} {out : List UInt8}
    (h : peek data offset len = .ok out) : out.length = len := by
  obtain ⟨hb, rfl⟩ := peek_ok_inv h
  simp only [List.length_take, List.length_drop]
  omega

theorem take_bytes_ok_inv {data : List UInt8} {offset len : Nat} {v : Bool}
    {bs : List UInt8} (h : take_bytes data offset len v = .ok bs) :
    offset + len ≤ data.length ∧ bs = (data.drop offset).take len := by
  have h' := take_bytes_mono h
  simp only [take_bytes] at h'
  rw [if_neg (by simp)] at h'
  split at h'
  · simp at h'
  · rename_i hb
    refine ⟨by omega, ?_⟩
    simpa using h'.symm

theorem take_bytes_ok_length {data : List UInt8} {offset len : Nat} {v : Bool}
    {bs : List UInt8} (h : take_bytes data offset len v = .ok bs) :
    bs.length = len := by
  obtain ⟨hb, rfl⟩ := take_bytes_ok_inv h
  simp only [List.length_take, List.length_drop]
  omega

/-! ### Shape: decoded tokens match the declared types -/

theorem tokens_all_match_snoc {t : ParamType} {tok : Token} {toks : List Token}
    (h1 : token_matches t tok = true) (h2 : tokens_all_match t toks = true) :
    tokens_all_match t (tok :: toks) = true := by
  simp only [tokens_all_match, Bool.and_eq_true]
  exact ⟨h1, h2⟩

theorem run_loop_shape {f : Nat → Except Error DecodeResult} {t : ParamType}
    (hf : ∀ o r, f o = .ok r → token_matches t r.token = true) :
    ∀ (n offset : Nat) (out : List Token × Nat),
      run_loop f offset n = .ok out →
      out.1.length = n ∧ tokens_all_match t out.1 = true := by
  intro n
  induction n with
  | zero =>
    intro offset out h
    simp only [run_loop, Except.ok.injEq] at h
    subst h
    exact ⟨rfl, by simp [tokens_all_match]⟩
  | succ n ih =>
    intro offset out h
    simp only [run_loop] at h
    rw [bind_eq_ok] at h
    obtain ⟨r, hr, h⟩ := h
    rw [bind_eq_ok] at h
    obtain ⟨⟨toks, fin⟩, hrest, h⟩ := h
    simp only [Except.ok.injEq] at h
    subst h
    obtain ⟨hlen, hmatch⟩ := ih _ _ hrest
    exact ⟨by simp [hlen], tokens_all_match_snoc (hf _ _ hr) hmatch⟩

mutual

theorem decode_param_shape (param : ParamType) (data : List UInt8) (offset : Nat)
    (validate : Bool) (r : DecodeResult)
    (h : decode_param param data offset validate = .ok r) :
    token_matches param r.token = true := by
  cases param with
  | Address =>
    simp only [decode_param] at h
    rw [bind_eq_ok] at h
    obtain ⟨slice, hs, h⟩ := h
    rw [bind_eq_ok] at h
    obtain ⟨u, hu, h⟩ := h
    simp only [Except.ok.injEq] at h
    subst h
    have hlen : slice.length = 32 := peek_ok_length hs
    simp [token_matches, hlen]
  | Int w =>
    simp only [decode_param] at h
    rw [bind_eq_ok] at h
    obtain ⟨slice, hs, h⟩ := h
    simp only [Except.ok.injEq] at h
    subst h
    simp [token_matches]
  | Uint w =>
    simp only [decode_param] at h
    rw [bind_eq_ok] at h
    obtain ⟨slice, hs, h⟩ := h
    simp only [Except.ok.injEq] at h
    subst h
    simp [token_matches]
  | Bool =>
    simp only [decode_param] at h
    rw [bind_eq_ok] at h
    obtain ⟨slice, hs, h⟩ := h
    rw [bind_eq_ok] at h
    obtain ⟨b, hb, h⟩ := h
    simp only [Except.ok.injEq] at h
    subst h
    simp [token_matches]
  | FixedBytes len =>
    simp only [decode_param] at h
    rw [bind_eq_ok] at h
    obtain ⟨bs, hbs, h⟩ := h
    simp only [Except.ok.injEq] at h
    subst h
    simp [token_matches, take_bytes_ok_length hbs]
  | Bytes =>
    simp only [decode_param] at h
    rw [bind_eq_ok] at h
    obtain ⟨w, hw, h⟩ := h
    rw [bind_eq_ok] at h
    obtain ⟨d, hd, h⟩ := h
    rw [bind_eq_ok] at h
    obtain ⟨lw, hlw, h⟩ := h
    rw [bind_eq_ok] at h
    obtain ⟨len, hlen, h⟩ := h
    rw [bind_eq_ok] at h
    obtain ⟨bs, hbs, h⟩ := h
    simp only [Except.ok.injEq] at h
    subst h
    simp [token_matches]
  | String =>
    simp only [decode_param] at h
    rw [bind_eq_ok] at h
    obtain ⟨w, hw, h⟩ := h
    rw [bind_eq_ok] at h
    obtain ⟨d, hd, h⟩ := h
    rw [bind_eq_ok] at h
    obtain ⟨lw, hlw, h⟩ := h
    rw [bind_eq_ok] at h
    obtain ⟨len, hlen, h⟩ := h
    rw [bind_eq_ok] at h
    obtain ⟨bs, hbs, h⟩ := h
    simp only [Except.ok.injEq] at h
    subst h
    simp [token_matches]
  | Array t =>
    simp only [decode_param] at h
    rw [bind_eq_ok] at h
    obtain ⟨w, hw, h⟩ := h
    rw [bind_eq_ok] at h
    obtain ⟨lo, hlo, h⟩ := h
    rw [bind_eq_ok] at h
    obtain ⟨lw, hlw, h⟩ := h
    rw [bind_eq_ok] at h
    obtain ⟨len, hlen, h⟩ := h
    rw [bind_eq_ok] at h
    obtain ⟨pair, hloop, h⟩ := h
    simp only [Except.ok.injEq] at h
    subst h
    have := run_loop_shape
      (fun o r hr => decode_param_shape t _ o validate r hr) _ _ _ hloop
    simpa [token_matches] using this.2
  | FixedArray t len =>
    by_cases hdyn : is_dynamic (ParamType.FixedArray t len) = true
    · simp only [decode_param] at h
      rw [if_pos hdyn] at h
      rw [bind_eq_ok] at h
      obtain ⟨w, hw, h⟩ := h
      rw [bind_eq_ok] at h
      obtain ⟨io, hio, h⟩ := h
      rw [bind_eq_ok] at h
      obtain ⟨u, hu, h⟩ := h
      rw [bind_eq_ok] at h
      obtain ⟨pair, hloop, h⟩ := h
      simp only [Except.ok.injEq] at h
      subst h
      have := run_loop_shape
        (fun o r hr => decode_param_shape t _ o validate r hr) _ _ _ hloop
      simp [token_matches, this.1, this.2]
    · simp only [decode_param] at h
      rw [if_neg hdyn] at h
      rw [bind_eq_ok] at h
      obtain ⟨pair, hloop, h⟩ := h
      simp only [Except.ok.injEq] at h
      subst h
      have := run_loop_shape
        (fun o r hr => decode_param_shape t _ o validate r hr) _ _ _ hloop
      simp [token_matches, this.1, this.2]
  | Tuple ts =>
    by_cases hdyn : is_dynamic (ParamType.Tuple ts) = true
    · simp only [decode_param] at h
      rw [if_pos hdyn] at h
      rw [bind_eq_ok] at h
      obtain ⟨w, hw, h⟩ := h
      rw [bind_eq_ok] at h
      obtain ⟨io, hio, h⟩ := h
      rw [bind_eq_ok] at h
      obtain ⟨u, hu, h⟩ := h
      rw [bind_eq_ok] at h
      obtain ⟨pair, hlist, h⟩ := h
      simp only [Except.ok.injEq] at h
      subst h
      have := decode_list_shape ts _ 0 validate _ hlist
      simpa [token_matches] using this
    · simp only [decode_param] at h
      rw [if_neg hdyn] at h
      rw [bind_eq_ok] at h
      obtain ⟨pair, hlist, h⟩ := h
      simp only [Except.ok.injEq] at h
      subst h
      have := decode_list_shape ts _ offset validate _ hlist
      simpa [token_matches] using this
termination_by sizeOf param

theorem decode_list_shape (types : List ParamType) (data : List UInt8)
    (offset : Nat) (validate : Bool) (out : List Token × Nat)
    (h : decode_list types data offset validate = .ok out) :
    tokens_match types out.1 = true := by
  cases types with
  | nil =>
    simp only [decode_list, Except.ok.injEq] at h
    subst h
    simp [tokens_match]
  | cons p ps =>
    simp only [decode_list] at h
    rw [bind_eq_ok] at h
    obtain ⟨r, hr, h⟩ := h
    rw [bind_eq_ok] at h
    obtain ⟨pair, hrest, h⟩ := h
    simp only [Except.ok.injEq] at h
    subst h
    have h1 := decode_param_shape p data offset validate r hr
    have h2 := decode_list_shape ps data r.new_offset validate pair hrest
    simp only [tokens_match, Bool.and_eq_true]
    exact ⟨h1, h2⟩
termination_by sizeOf types

end

theorem tokens_match_length {types : List ParamType} {toks : List Token}
    (h : tokens_match types toks = true) : toks.length = types.length := by
  induction types generalizing toks with
  | nil => cases toks with
    | nil => rfl
    | cons a as => simp [tokens_match] at h
  | cons p ps ih =>
    cases toks with
    | nil => simp [tokens_match] at h
    | cons a as =>
      simp only [tokens_match, Bool.and_eq_true] at h
      simp [ih h.2]

theorem decode_impl_ok_inv {types : List ParamType} {data : List UInt8}
    {v : Bool} {out : List Token × Nat}
    (h : decode_impl types data v = .ok out) :
    decode_list types data 0 v = .ok out ∧
      (v = true → out.2 = data.length) ∧
      (!is_empty_bytes_valid_encoding_list types && data.isEmpty) = false := by
  simp only [decode_impl] at h
  split at h
  · simp at h
  · rename_i hempty
    rw [bind_eq_ok] at h
    obtain ⟨⟨toks, off⟩, hlist, h⟩ := h
    split at h
    · simp at h
    · rename_i hend
      simp only [Except.ok.injEq] at h
      subst h
      refine ⟨hlist, ?_, by simpa using hempty⟩
      intro hv
      subst hv
      simp only [Bool.true_and, Bool.not_eq_true, ne_eq, bne_eq_false_iff_eq] at hend
      simpa using hend

/-! ### Concrete word and string-encoding computations -/

theorem uint8_toNat_ofNat (k : Nat) : (UInt8.ofNat k).toNat = k % 256 := rfl

theorem word_of_nat_length (n : Nat) : (word_of_nat n).length = 32 := by
  simp [word_of_nat]

theorem as_usize_word_of_nat {n : Nat} (h : n < 2 ^ 32) :
    as_usize (word_of_nat n) = .ok n := by
  simp only [as_usize, word_of_nat]
  rw [List.take_left' (by simp)]
  rw [if_neg (by simp)]
  rw [List.getD_append_right _ _ _ _ (by simp), List.getD_append_right _ _ _ _ (by simp),
    List.getD_append_right _ _ _ _ (by simp), List.getD_append_right _ _ _ _ (by simp)]
  simp only [List.length_replicate, List.getD_cons_zero, List.getD_cons_succ]
  norm_num [List.getD, uint8_toNat_ofNat]
  omega

theorem peek_32_exact (pre w rest : List UInt8) (hw : w.length = 32) :
    peek_32_bytes (pre ++ (w ++ rest)) pre.length = .ok w := by
  simp only [peek_32_bytes, peek]
  rw [if_neg (by simp [hw])]
  rw [List.drop_left, ← hw, List.take_left]

theorem take_bytes_exact_false (pre payload rest : List UInt8) :
    take_bytes (pre ++ (payload ++ rest)) pre.length payload.length false = .ok payload := by
  simp only [take_bytes]
  rw [if_neg (by simp)]
  rw [if_neg (by simp)]
  rw [List.drop_left, List.take_left]

theorem take_bytes_exact_true (pre payload : List UInt8) :
    take_bytes
      (pre ++ (payload ++
        List.replicate (round_up_nearest_multiple payload.length 32 - payload.length) 0))
      pre.length payload.length true = .ok payload := by
  have hle := le_round_up payload.length
  simp only [take_bytes]
  rw [if_pos trivial]
  rw [if_neg (by simp; omega)]
  have hdrop : ((pre ++ (payload ++
      List.replicate (round_up_nearest_multiple payload.length 32 - payload.length) 0)).drop
        (pre.length + payload.length)) =
      List.replicate (round_up_nearest_multiple payload.length 32 - payload.length) 0 := by
    rw [← List.append_assoc]
    exact List.drop_left' (by simp)
  rw [hdrop]
  rw [List.take_replicate]
  have hcz : check_zeroes (List.replicate
      (min (round_up_nearest_multiple payload.length 32 - payload.length)
        (round_up_nearest_multiple payload.length 32 - payload.length)) 0) = .ok () := by
    simp [check_zeroes, List.all_eq_true]
  rw [hcz, ok_bind, List.drop_left, List.take_left]

theorem decode_param_string (payload extra : List UInt8) (v : Bool)
    (hlen : payload.length < 2 ^ 32)
    (hv : v = true → extra =
      List.replicate (round_up_nearest_multiple payload.length 32 - payload.length) 0) :
    decode_param .String (word_of_nat 32 ++ word_of_nat payload.length ++ payload ++ extra) 0 v
      = .ok ⟨.String (from_utf8_lossy payload), 32⟩ := by
  have hA : (word_of_nat 32).length = 32 := word_of_nat_length 32
  have hB : (word_of_nat payload.length).length = 32 := word_of_nat_length _
  have h1 : peek_32_bytes
      (word_of_nat 32 ++ word_of_nat payload.length ++ payload ++ extra) 0 = .ok (word_of_nat 32) := by
    have := peek_32_exact [] (word_of_nat 32)
      (word_of_nat payload.length ++ (payload ++ extra)) hA
    simpa [List.append_assoc] using this
  have h2 : peek_32_bytes
      (word_of_nat 32 ++ word_of_nat payload.length ++ payload ++ extra) 32 = .ok (word_of_nat payload.length) := by
    have := peek_32_exact (word_of_nat 32) (word_of_nat payload.length)
      (payload ++ extra) hB
    rw [hA] at this
    simpa [List.append_assoc] using this
  have h3 : as_usize (word_of_nat 32) = .ok 32 := as_usize_word_of_nat (by norm_num)
  have h4 : as_usize (word_of_nat payload.length) = .ok payload.length :=
    as_usize_word_of_nat hlen
  have h5 : take_bytes (word_of_nat 32 ++ word_of_nat payload.length ++ payload ++ extra)
      (32 + 32) payload.length v = .ok payload := by
    cases v with
    | false =>
      have := take_bytes_exact_false (word_of_nat 32 ++ word_of_nat payload.length)
        payload extra
      rw [List.length_append, hA, hB] at this
      simpa [List.append_assoc] using this
    | true =>
      rw [hv rfl]
      have := take_bytes_exact_true (word_of_nat 32 ++ word_of_nat payload.length)
        payload
      rw [List.length_append, hA, hB] at this
      simpa [List.append_assoc] using this
  simp only [decode_param]
  rw [h1, ok_bind, h3, ok_bind, h2, ok_bind, h4, ok_bind, h5, ok_bind]

theorem string_encoding_not_empty (payload : List UInt8) :
    (string_encoding payload).isEmpty = false := by
  simp [string_encoding, word_of_nat]

theorem decode_list_string_encoding {payload : List UInt8} {v : Bool}
    (hlen : payload.length < 2 ^ 32) :
    decode_list [.String] (string_encoding payload) 0 v
      = .ok ([.String (from_utf8_lossy payload)], 32) := by
  have h := decode_param_string payload
    (List.replicate (round_up_nearest_multiple payload.length 32 - payload.length) 0)
    v hlen (fun _ => rfl)
  simp only [decode_list]
  rw [show string_encoding payload
      = word_of_nat 32 ++ word_of_nat payload.length ++ payload ++
        List.replicate (round_up_nearest_multiple payload.length 32 - payload.length) 0
    from rfl]
  rw [h, ok_bind]
  rfl

theorem decode_string_encoding {payload : List UInt8}
    (hlen : payload.length < 2 ^ 32) :
    decode [.String] (string_encoding payload)
      = .ok [.String (from_utf8_lossy payload)] := by
  simp only [decode, decode_impl]
  rw [if_neg (by rw [string_encoding_not_empty]; simp)]
  rw [decode_list_string_encoding hlen, ok_bind]
  rfl

/-! ### Further helper lemmas -/

theorem check_if_true (bytes : List UInt8) : check_if true bytes = check_zeroes bytes := rfl

theorem peek_ok_of_le {data : List UInt8} {offset len : Nat}
    (h : offset + len ≤ data.length) :
    peek data offset len = .ok ((data.drop offset).take len) := by
  simp only [peek]
  rw [if_neg (by omega)]

theorem drop_getElem? {α : Type} (l : List α) (s i : Nat) :
    (l.drop s)[i]? = l[s + i]? := by
  induction l generalizing s with
  | nil => simp
  | cons a as ih =>
    cases s with
    | zero => simp
    | succ s => simp [Nat.succ_add, ih s]

theorem slice_all_zero_iff {data : List UInt8} {s k : Nat} (hk : s + k ≤ data.length) :
    (((data.drop s).take k).all (fun b => b == 0) = true) ↔
      (∀ i < k, data.getD (s + i) 0 = 0) := by
  have hstep : ∀ i, i < k → ((data.drop s).take k)[i]? = data[s + i]? := by
    intro i hi
    rw [List.getElem?_take_of_lt hi, drop_getElem?]
  have hlen : ((data.drop s).take k).length = k := by
    simp only [List.length_take, List.length_drop]
    omega
  rw [List.all_eq_true]
  constructor
  · intro h i hi
    have hidx : s + i < data.length := by omega
    have hmem : data[s + i] ∈ (data.drop s).take k := by
      rw [List.mem_iff_getElem?]
      exact ⟨i, by rw [hstep i hi]; exact List.getElem?_eq_getElem hidx⟩
    have hz := h _ hmem
    simp only [beq_iff_eq] at hz
    rw [List.getD_eq_getElem?_getD, List.getElem?_eq_getElem hidx]
    simpa using hz
  · intro h b hb
    rw [List.mem_iff_getElem?] at hb
    obtain ⟨i, hbi⟩ := hb
    obtain ⟨hlt, hbv⟩ := List.getElem?_eq_some.1 hbi
    rw [hlen] at hlt
    have hidx : s + i < data.length := by omega
    have := h i hlt
    rw [List.getD_eq_getElem?_getD, List.getElem?_eq_getElem hidx] at this
    simp only [Option.getD_some] at this
    rw [hstep i hlt, List.getElem?_eq_getElem hidx] at hbi
    simp only [Option.some.injEq] at hbi
    simp [← hbi, this]

/-! ### Concrete runs used by the claims -/

theorem decode_fb0_empty : decode [ParamType.FixedBytes 0] [] = .ok [Token.FixedBytes []] := by
  simp [decode, decode_impl, decode_list, decode_param, take_bytes,
    is_empty_bytes_valid_encoding_list, is_empty_bytes_valid_encoding,
    round_up_nearest_multiple, check_zeroes]

theorem decode_validate_fb0_empty :
    decode_validate [ParamType.FixedBytes 0] [] = .error .InvalidData := by
  simp [decode_validate, decode_impl, decode_list, decode_param, take_bytes,
    is_empty_bytes_valid_encoding_list, is_empty_bytes_valid_encoding,
    round_up_nearest_multiple, check_zeroes]

theorem decode_validate_zero_word_addr :
    decode_validate [ParamType.Address] (List.replicate 32 0)
      = .ok [Token.Address (List.replicate 20 0)] := by
  simp [decode_validate, decode_impl, decode_list, decode_param, check_if, check_zeroes,
    peek_32_bytes, peek, is_empty_bytes_valid_encoding_list, is_empty_bytes_valid_encoding,
    List.all_eq_true, List.mem_replicate]

theorem decode_dirty_addr_lenient :
    decode [ParamType.Address] dirty_address_word = .ok [Token.Address (List.replicate 20 0)] := by
  simp [decode, decode_impl, decode_list, decode_param, check_if, check_zeroes,
    dirty_address_word, peek_32_bytes, peek, is_empty_bytes_valid_encoding_list,
    is_empty_bytes_valid_encoding, List.all_eq_true, List.mem_replicate]

theorem decode_validate_dirty_addr :
    decode_validate [ParamType.Address] dirty_address_word = .error .InvalidData := by
  simp [decode_validate, decode_impl, decode_list, decode_param, check_if, check_zeroes,
    dirty_address_word, peek_32_bytes, peek, is_empty_bytes_valid_encoding_list,
    is_empty_bytes_valid_encoding, List.all_eq_true, List.mem_replicate]

theorem decode_str146_ok :
    decode [ParamType.String] str146_buf = .ok [Token.String ⟨List.replicate 146 'a'⟩] := by
  rw [show str146_buf = string_encoding (List.replicate 146 0x61) from rfl,
    decode_string_encoding (by simp)]
  rw [show from_utf8_lossy (List.replicate 146 0x61) = ⟨List.replicate 146 'a'⟩ from by decide]

theorem decode_validate_str146_err :
    decode_validate [ParamType.String] str146_buf = .error .InvalidData := by
  rw [show str146_buf = string_encoding (List.replicate 146 0x61) from rfl]
  simp only [decode_validate, decode_impl]
  rw [if_neg (by rw [string_encoding_not_empty]; simp)]
  rw [decode_list_string_encoding (by simp), ok_bind]
  norm_num [string_encoding, word_of_nat, round_up_nearest_multiple]

/-! ### Claims -/

/-- C1 (counterexample): the claim asserts that a buffer encoding a string of
declared length 146 decodes successfully in both modes; in fact
`decode_validate` rejects it with `InvalidData`, because decoding a `String`
advances the cursor only past its 32-byte head slot (to 32), which cannot
equal the 224-byte buffer length demanded by the strict end-of-buffer check. -/
theorem c1_validate_rejects_str146 :
    decode_validate [ParamType.String] str146_buf = .error .InvalidData :=
  decode_validate_str146_err

/-- C1 (amended): for the buffer declaring a string of length 146 followed by
the ASCII payload words with zero padding, lenient `decode` yields a string
token of exactly 146 bytes of text; strict `decode_validate` fails with
`InvalidData` because the cursor after the head slot (32) differs from the
buffer length. -/
theorem c1_str146_decoding :
    decode [ParamType.String] str146_buf = .ok [Token.String ⟨List.replicate 146 'a'⟩] ∧
    (⟨List.replicate 146 'a'⟩ : String).utf8ByteSize = 146 ∧
    decode_validate [ParamType.String] str146_buf = .error .InvalidData :=
  ⟨decode_str146_ok, by decide, decode_validate_str146_err⟩

/-- C2 (counterexample): for the 32-byte word whose first 31 bytes are zero
and whose last byte is 2, `as_bool` returns `Ok(false)` — it does not fail
with `InvalidData` as the claim asserts. -/
theorem c2_as_bool_two_is_ok_false :
    as_bool (List.replicate 31 0 ++ [2]) = .ok false ∧
    (Except.ok false : Except Error Bool) ≠ .error .InvalidData := by
  constructor
  · decide
  · intro h
    cases h

/-- C2 (amended): for every 32-byte word, `as_bool` requires the first 31
bytes to be zero (otherwise `InvalidData`) and then returns `Ok(last byte ==
1)`: true iff the last byte is 1 and false for every other value of the last
byte, including 2..=255, in both modes (the function does not depend on the
validate flag at all). -/
theorem c2_as_bool_spec (w : List UInt8) (_hw : w.length = 32) :
    ((w.take 31).all (fun b => b == 0) = true → as_bool w = .ok (w.getD 31 0 == 1)) ∧
    ((w.take 31).all (fun b => b == 0) = false → as_bool w = .error .InvalidData) := by
  constructor
  · intro hz
    simp only [as_bool, check_zeroes]
    rw [if_pos hz, ok_bind]
  · intro hz
    simp only [as_bool, check_zeroes]
    rw [if_neg (by simp [hz]), error_bind]

theorem c2_as_bool_spec_witness :
    as_bool (List.replicate 31 0 ++ [5])
      = .ok (((List.replicate 31 0 ++ [5] : List UInt8)).getD 31 0 == 1) :=
  (c2_as_bool_spec (List.replicate 31 0 ++ [5]) (by decide)).1 (by decide)

/-- C3: whenever strict `decode_validate` succeeds, lenient `decode` succeeds
on the same types and buffer and returns the same token list. -/
theorem c3_decode_validate_refines_decode (types : List ParamType)
    (data : List UInt8) (tokens : List Token)
    (h : decode_validate types data = .ok tokens) :
    decode types data = .ok tokens := by
  rw [decode_validate, map_fst_eq_ok] at h
  obtain ⟨off, h⟩ := h
  obtain ⟨hlist, _, hempty⟩ := decode_impl_ok_inv h
  rw [decode, map_fst_eq_ok]
  refine ⟨off, ?_⟩
  simp only [decode_impl]
  rw [hempty]
  rw [if_neg (by simp)]
  rw [decode_list_mono types data 0 true (tokens, off) hlist, ok_bind]
  rw [if_neg (by simp)]

theorem c3_decode_validate_refines_decode_witness :
    decode [ParamType.Address] (List.replicate 32 0)
      = .ok [Token.Address (List.replicate 20 0)] :=
  c3_decode_validate_refines_decode _ _ _ decode_validate_zero_word_addr

/-- C4: a successful lenient `decode` returns exactly one token per declared
type, and each token's shape (variant, recursively, with the declared
lengths) matches the declared type. -/
theorem c4_decode_shape (types : List ParamType) (data : List UInt8)
    (tokens : List Token) (h : decode types data = .ok tokens) :
    tokens.length = types.length ∧ tokens_match types tokens = true := by
  rw [decode, map_fst_eq_ok] at h
  obtain ⟨off, h⟩ := h
  obtain ⟨hlist, _, _⟩ := decode_impl_ok_inv h
  have hm := decode_list_shape types data 0 false (tokens, off) hlist
  exact ⟨tokens_match_length hm, hm⟩

theorem c4_decode_shape_witness :
    [Token.Address (List.replicate 20 0)].length = [ParamType.Address].length ∧
    tokens_match [ParamType.Address] [Token.Address (List.replicate 20 0)] = true :=
  c4_decode_shape _ _ _ decode_dirty_addr_lenient

/-- C5: on an empty buffer, if some declared type does not tolerate empty
input, both modes fail with the dedicated message-carrying `InvalidName`
diagnostic (distinct from `InvalidData`); if every declared type tolerates
empty input, `decode_impl` behaves exactly as if the empty-input guard were
absent, i.e. decoding proceeds past this check. -/
theorem c5_empty_input_diagnostic :
    (∀ types : List ParamType, is_empty_bytes_valid_encoding_list types = false →
        decode types [] = .error (.InvalidName empty_input_message) ∧
        decode_validate types [] = .error (.InvalidName empty_input_message)) ∧
    (∀ (types : List ParamType) (data : List UInt8) (v : Bool),
        is_empty_bytes_valid_encoding_list types = true →
        decode_impl types data v = decode_impl_no_empty_check types data v) ∧
    Error.InvalidName empty_input_message ≠ Error.InvalidData := by
  refine ⟨?_, ?_, by intro h; cases h⟩
  · intro types h
    constructor
    · simp only [decode, decode_impl]
      rw [h]
      rw [if_pos (by decide)]
      rfl
    · simp only [decode_validate, decode_impl]
      rw [h]
      rw [if_pos (by decide)]
      rfl
  · intro types data v h
    simp only [decode_impl, decode_impl_no_empty_check]
    rw [h]
    rw [if_neg (by simp)]

theorem c5_empty_input_diagnostic_witness :
    decode [ParamType.Address] [] = .error (.InvalidName empty_input_message) ∧
    decode_impl [ParamType.FixedBytes 0] [] true
      = decode_impl_no_empty_check [ParamType.FixedBytes 0] [] true :=
  ⟨(c5_empty_input_diagnostic.1 [ParamType.Address]
      (by simp [is_empty_bytes_valid_encoding_list, is_empty_bytes_valid_encoding])).1,
    c5_empty_input_diagnostic.2.1 [ParamType.FixedBytes 0] [] true
      (by simp [is_empty_bytes_valid_encoding_list, is_empty_bytes_valid_encoding])⟩

/-- C6: `take_bytes` returns the copy `buffer[offset .. offset+len]`; with
`validate` it requires `offset + ceil(len/32)*32 ≤ |buffer|` and zero bytes
from `offset+len` to `offset+padded_len` (else `InvalidData`); without
`validate` it requires only `offset + len ≤ |buffer|`; and
`round_up_nearest_multiple 0 32 = 0`. -/
theorem c6_take_bytes_contract :
    (∀ (data : List UInt8) (offset len : Nat) (out : List UInt8),
        take_bytes data offset len false = .ok out ↔
          offset + len ≤ data.length ∧ out = (data.drop offset).take len) ∧
    (∀ (data : List UInt8) (offset len : Nat),
        take_bytes data offset len false = .error .InvalidData ↔
          data.length < offset + len) ∧
    (∀ (data : List UInt8) (offset len : Nat) (out : List UInt8),
        take_bytes data offset len true = .ok out ↔
          offset + round_up_nearest_multiple len 32 ≤ data.length ∧
          (∀ i < round_up_nearest_multiple len 32 - len,
            data.getD (offset + len + i) 0 = 0) ∧
          out = (data.drop offset).take len) ∧
    (∀ (data : List UInt8) (offset len : Nat),
        take_bytes data offset len true = .error .InvalidData ↔
          ¬(offset + round_up_nearest_multiple len 32 ≤ data.length ∧
            ∀ i < round_up_nearest_multiple len 32 - len,
              data.getD (offset + len + i) 0 = 0)) ∧
    round_up_nearest_multiple 0 32 = 0 := by
  refine ⟨?_, ?_, ?_, ?_, by decide⟩
  · intro data offset len out
    simp only [take_bytes]
    rw [if_neg (by simp)]
    constructor
    · intro h
      split at h
      · simp at h
      · rename_i hb
        simp only [Except.ok.injEq] at h
        exact ⟨by omega, h.symm⟩
    · rintro ⟨h1, rfl⟩
      rw [if_neg (by omega)]
  · intro data offset len
    simp only [take_bytes]
    rw [if_neg (by simp)]
    constructor
    · intro h
      by_contra hc
      rw [if_neg (by omega)] at h
      simp at h
    · intro hlt
      rw [if_pos (by omega)]
  · intro data offset len out
    have hle := le_round_up len
    simp only [take_bytes]
    rw [if_pos trivial]
    by_cases hb : offset + round_up_nearest_multiple len 32 > data.length
    · rw [if_pos hb]
      constructor
      · intro h
        simp at h
      · rintro ⟨h1, _, _⟩
        omega
    · rw [if_neg hb]
      have hk : (offset + len) + (round_up_nearest_multiple len 32 - len) ≤ data.length := by
        omega
      by_cases hall : (((data.drop (offset + len)).take
          (round_up_nearest_multiple len 32 - len)).all (fun b => b == 0)) = true
      · have hcz : check_zeroes ((data.drop (offset + len)).take
            (round_up_nearest_multiple len 32 - len)) = .ok () := by
          simp only [check_zeroes]
          rw [if_pos hall]
        rw [hcz, ok_bind]
        constructor
        · intro h
          simp only [Except.ok.injEq] at h
          exact ⟨by omega, (slice_all_zero_iff hk).mp hall, h.symm⟩
        · rintro ⟨_, _, rfl⟩
          rfl
      · have hcz : check_zeroes ((data.drop (offset + len)).take
            (round_up_nearest_multiple len 32 - len)) = .error .InvalidData := by
          simp only [check_zeroes]
          rw [if_neg hall]
        rw [hcz, error_bind]
        constructor
        · intro h
          simp at h
        · rintro ⟨h1, h2, _⟩
          exact absurd ((slice_all_zero_iff hk).mpr h2) hall
  · intro data offset len
    have hle := le_round_up len
    simp only [take_bytes]
    rw [if_pos trivial]
    by_cases hb : offset + round_up_nearest_multiple len 32 > data.length
    · rw [if_pos hb]
      constructor
      · intro _ hc
        exact absurd hc.1 (by omega)
      · intro _
        rfl
    · rw [if_neg hb]
      have hk : (offset + len) + (round_up_nearest_multiple len 32 - len) ≤ data.length := by
        omega
      by_cases hall : (((data.drop (offset + len)).take
          (round_up_nearest_multiple len 32 - len)).all (fun b => b == 0)) = true
      · have hcz : check_zeroes ((data.drop (offset + len)).take
            (round_up_nearest_multiple len 32 - len)) = .ok () := by
          simp only [check_zeroes]
          rw [if_pos hall]
        rw [hcz, ok_bind]
        constructor
        · intro h
          simp at h
        · intro hc
          exact absurd ⟨by omega, (slice_all_zero_iff hk).mp hall⟩ hc
      · have hcz : check_zeroes ((data.drop (offset + len)).take
            (round_up_nearest_multiple len 32 - len)) = .error .InvalidData := by
          simp only [check_zeroes]
          rw [if_neg hall]
        rw [hcz, error_bind]
        constructor
        · intro _ hc
          exact absurd ((slice_all_zero_iff hk).mpr hc.2) hall
        · intro _
          rfl

theorem c6_take_bytes_contract_witness :
    take_bytes ((7 : UInt8) :: List.replicate 31 0) 0 1 true = .ok [7] :=
  (c6_take_bytes_contract.2.2.1 ((7 : UInt8) :: List.replicate 31 0) 0 1 [7]).mpr
    ⟨by decide, by decide, by decide⟩

/-- C7: decoding an `Address` reads the word at the cursor, produces a token
holding exactly the word's last 20 bytes, and advances the cursor by 32; the
first-12-bytes-zero requirement applies only under `validate`, so on a word
with non-zero upper bytes lenient `decode` succeeds (ignoring them) while
`decode_validate` fails. -/
theorem c7_address_decoding :
    (∀ (data : List UInt8) (offset : Nat), offset + 32 ≤ data.length →
        decode_param .Address data offset false =
          .ok ⟨.Address (((data.drop offset).take 32).drop 12), offset + 32⟩) ∧
    (∀ (data : List UInt8) (offset : Nat), offset + 32 ≤ data.length →
        (((data.drop offset).take 12).all (fun b => b == 0) = true →
          decode_param .Address data offset true =
            .ok ⟨.Address (((data.drop offset).take 32).drop 12), offset + 32⟩) ∧
        (((data.drop offset).take 12).all (fun b => b == 0) = false →
          decode_param .Address data offset true = .error .InvalidData)) ∧
    decode [.Address] dirty_address_word = .ok [.Address (List.replicate 20 0)] ∧
    decode_validate [.Address] dirty_address_word = .error .InvalidData := by
  refine ⟨?_, ?_, decode_dirty_addr_lenient, decode_validate_dirty_addr⟩
  · intro data offset h
    simp only [decode_param, peek_32_bytes]
    rw [peek_ok_of_le h, ok_bind, check_if_false, ok_bind]
  · intro data offset h
    have htt : ((data.drop offset).take 32).take 12 = (data.drop offset).take 12 := by
      simp [List.take_take]
    constructor
    · intro hz
      simp only [decode_param, peek_32_bytes]
      rw [peek_ok_of_le h, ok_bind, check_if_true]
      have hcz : check_zeroes (((data.drop offset).take 32).take 12) = .ok () := by
        simp only [check_zeroes]
        rw [if_pos (by rw [htt]; exact hz)]
      rw [hcz, ok_bind]
    · intro hz
      simp only [decode_param, peek_32_bytes]
      rw [peek_ok_of_le h, ok_bind, check_if_true]
      have hcz : check_zeroes (((data.drop offset).take 32).take 12)
          = .error .InvalidData := by
        simp only [check_zeroes]
        rw [if_neg (by rw [htt]; simp [hz])]
      rw [hcz, error_bind]

theorem c7_address_decoding_witness :
    decode_param .Address dirty_address_word 0 false =
      .ok ⟨.Address (((dirty_address_word.drop 0).take 32).drop 12), 0 + 32⟩ ∧
    decode_param .Address dirty_address_word 0 true = .error .InvalidData :=
  ⟨c7_address_decoding.1 dirty_address_word 0 (by decide),
    (c7_address_decoding.2.1 dirty_address_word 0 (by decide)).2 (by decide)⟩

/-- C8: every byte payload (of encodable length), wrapped as a well-formed
dynamic string encoding, decodes successfully with lenient `decode`; invalid
UTF-8 sequences in the payload are replaced with U+FFFD in the resulting
string token rather than causing an error. -/
theorem c8_decode_string_lossy (payload : List UInt8)
    (h : payload.length < 2 ^ 32) :
    decode [.String] (string_encoding payload)
      = .ok [.String (from_utf8_lossy payload)] :=
  decode_string_encoding h

theorem c8_decode_string_lossy_witness :
    decode [.String] (string_encoding [0xe4, 0xb8, 0x8d, 0xe5])
      = .ok [.String (from_utf8_lossy [0xe4, 0xb8, 0x8d, 0xe5])] ∧
    from_utf8_lossy [0xe4, 0xb8, 0x8d, 0xe5]
      = ⟨[Char.ofNat 0x4E0D, replacement_char]⟩ :=
  ⟨c8_decode_string_lossy [0xe4, 0xb8, 0x8d, 0xe5] (by decide), by decide⟩

/-- C9: `peek` returns exactly the `len` bytes beginning at `offset` and
fails with `InvalidData` whenever `offset + len > |buffer|`; in this model
the addition `offset + len` is exact natural-number arithmetic, so an
out-of-range request can never wrap around into an in-range one. -/
theorem c9_peek_contract :
    (∀ (data : List UInt8) (offset len : Nat) (out : List UInt8),
        peek data offset len = .ok out ↔
          offset + len ≤ data.length ∧ out = (data.drop offset).take len) ∧
    (∀ (data : List UInt8) (offset len : Nat),
        peek data offset len = .error .InvalidData ↔ data.length < offset + len) ∧
    (∀ (data : List UInt8) (offset len : Nat) (out : List UInt8),
        peek data offset len = .ok out → out.length = len) := by
  refine ⟨?_, ?_, ?_⟩
  · intro data offset len out
    constructor
    · intro h
      exact peek_ok_inv h
    · rintro ⟨h1, rfl⟩
      exact peek_ok_of_le h1
  · intro data offset len
    simp only [peek]
    constructor
    · intro h
      by_contra hc
      rw [if_neg (by omega)] at h
      simp at h
    · intro hlt
      rw [if_pos (by omega)]
  · intro data offset len out h
    exact peek_ok_length h

theorem c9_peek_contract_witness :
    peek [5, 6, 7] 1 2 = .ok [6, 7] :=
  (c9_peek_contract.1 [5, 6, 7] 1 2 [6, 7]).mpr ⟨by decide, by decide⟩

/-- C10: with type list `[FixedBytes 0]` and the empty buffer, lenient
`decode` succeeds with one token of zero bytes while `decode_validate` fails
with `InvalidData`: decoding `FixedBytes 0` still advances the cursor by 32,
so the strict end-of-buffer check `cursor = |buffer|` cannot hold on an empty
buffer. -/
theorem c10_fixed_bytes0_empty_buffer :
    decode [ParamType.FixedBytes 0] [] = .ok [Token.FixedBytes []] ∧
    decode_validate [ParamType.FixedBytes 0] [] = .error .InvalidData ∧
    decode_param (ParamType.FixedBytes 0) [] 0 true = .ok ⟨Token.FixedBytes [], 32⟩ :=
  ⟨decode_fb0_empty, decode_validate_fb0_empty, by
    simp [decode_param, take_bytes, round_up_nearest_multiple, check_zeroes]⟩
